import Mathlib

/-!
Verification of the public-key cryptography toolkit
(`rsa.py`, `elgamal.py`, `diffie_hellman.py`, `rsa_digitalsignature.py`).

Byte strings are modelled as `List ℕ` with every element `< 256`.
The helper module `funcs.py` is not part of the sources; its functions are
modelled from the spec (each such definition says so in its doc comment).
Randomness is modelled by explicit streams (`ℕ → ℕ`) passed as arguments,
and the unbounded `while` loops of the key generators by an explicit fuel
parameter: `none` means the fuel ran out with the loop still running,
`some none` means the Python code raised an exception, and `some (some r)`
means the call returned `r`.
-/

namespace Crypto

/-! ## Byte codec (modelled from the spec, §4.7: `funcs.py` is not in the sources) -/

/-- Modelled from the spec: `block_from_bytes` / big-endian `int.from_bytes`.
Interprets a byte list as a big-endian unsigned integer. -/
def bytesToNat : List ℕ → ℕ
  | [] => 0
  | b :: rest => b * 256 ^ rest.length + bytesToNat rest

/-- Big-endian rendering of `v` into exactly `len` bytes (the total core of
`int.to_bytes`); the most significant byte comes first. -/
def natToBytes : ℕ → ℕ → List ℕ
  | 0, _ => []
  | len + 1, v => (v / 256 ^ len) :: natToBytes len (v % 256 ^ len)

/-- Modelled from the spec: `bytes_from_block(int_value, length)` renders an
integer into exactly `length` big-endian bytes; Python's `int.to_bytes`
raises `OverflowError` when the value does not fit, modelled as `none`. -/
def bytes_from_block (v len : ℕ) : Option (List ℕ) :=
  if v < 256 ^ len then some (natToBytes len v) else none

/-- Fuel-driven chunking of a list into consecutive pieces of `bs` elements
(the final piece may be shorter); fuel `l.length` always suffices for
`bs ≥ 1`. -/
def chunksAux (bs : ℕ) : ℕ → List ℕ → List (List ℕ)
  | 0, _ => []
  | _ + 1, [] => []
  | fuel + 1, x :: xs => (x :: xs).take bs :: chunksAux bs fuel ((x :: xs).drop bs)

/-- Splits a list into consecutive chunks of `bs` elements. -/
def chunks (bs : ℕ) (l : List ℕ) : List (List ℕ) :=
  chunksAux bs l.length l

/-- Modelled from the spec: `blocks_from_bytes(data, block_size)` splits
`data` into consecutive `block_size`-byte chunks (final chunk may be
shorter), each read as a big-endian unsigned integer. -/
def blocks_from_bytes (data : List ℕ) (bs : ℕ) : List ℕ :=
  (chunks bs data).map bytesToNat

/-- Fuel-driven byte count of a modulus; fuel `n` always suffices. -/
def cbsAux : ℕ → ℕ → ℕ
  | 0, _ => 0
  | fuel + 1, n => if 256 ≤ n then cbsAux fuel (n / 256) + 1 else 0

/-- Modelled from the spec: `compute_block_size(modulus)` is the largest
byte count strictly representable below the modulus, i.e. the largest `B`
with `256 ^ B ≤ modulus` (so every `B`-byte block integer is `< modulus`). -/
def compute_block_size (n : ℕ) : ℕ :=
  cbsAux n n

/-- Option-valued map that fails as soon as one element fails, mirroring a
Python list comprehension whose body may raise. -/
def optMap (f : α → Option β) : List α → Option (List β)
  | [] => some []
  | a :: l => do
      let b ← f a
      let r ← optMap f l
      some (b :: r)

/-! ### Codec lemmas -/

theorem natToBytes_length (len v : ℕ) : (natToBytes len v).length = len := by
  induction len generalizing v with
  | zero => rfl
  | succ n ih => simp [natToBytes, ih]

theorem bytesToNat_natToBytes {len v : ℕ} (h : v < 256 ^ len) :
    bytesToNat (natToBytes len v) = v := by
  induction len generalizing v with
  | zero =>
    simp [natToBytes, bytesToNat]
    omega
  | succ n ih =>
    have hmod : v % 256 ^ n < 256 ^ n := Nat.mod_lt _ (Nat.pos_pow_of_pos n (by norm_num))
    simp only [natToBytes, bytesToNat, natToBytes_length, ih hmod]
    rw [Nat.mul_comm]
    exact Nat.div_add_mod v (256 ^ n)

theorem bytesToNat_lt {l : List ℕ} (h : ∀ b ∈ l, b < 256) :
    bytesToNat l < 256 ^ l.length := by
  induction l with
  | nil => simp [bytesToNat]
  | cons b rest ih =>
    have hb : b < 256 := h b (List.mem_cons_self _ _)
    have ht : bytesToNat rest < 256 ^ rest.length := ih fun x hx => h x (List.mem_cons_of_mem _ hx)
    have : b * 256 ^ rest.length + bytesToNat rest < (b + 1) * 256 ^ rest.length := by
      nlinarith [ht]
    calc bytesToNat (b :: rest) = b * 256 ^ rest.length + bytesToNat rest := rfl
      _ < (b + 1) * 256 ^ rest.length := this
      _ ≤ 256 * 256 ^ rest.length := by
          have : b + 1 ≤ 256 := hb
          exact Nat.mul_le_mul_right _ this
      _ = 256 ^ (rest.length + 1) := by ring

theorem natToBytes_bytesToNat {l : List ℕ} (h : ∀ b ∈ l, b < 256) :
    natToBytes l.length (bytesToNat l) = l := by
  induction l with
  | nil => rfl
  | cons b rest ih =>
    have hb : b < 256 := h b (List.mem_cons_self _ _)
    have ht : bytesToNat rest < 256 ^ rest.length :=
      bytesToNat_lt fun x hx => h x (List.mem_cons_of_mem _ hx)
    have hpos : 0 < 256 ^ rest.length := Nat.pos_pow_of_pos _ (by norm_num)
    have hdiv : (b * 256 ^ rest.length + bytesToNat rest) / 256 ^ rest.length = b := by
      rw [Nat.mul_comm b _, Nat.mul_add_div hpos, Nat.div_eq_of_lt ht, Nat.add_zero]
    have hmod : (b * 256 ^ rest.length + bytesToNat rest) % 256 ^ rest.length
        = bytesToNat rest := by
      rw [Nat.mul_comm b _, Nat.mul_add_mod, Nat.mod_eq_of_lt ht]
    simp only [List.length_cons, bytesToNat, natToBytes]
    rw [hdiv, hmod, ih fun x hx => h x (List.mem_cons_of_mem _ hx)]

theorem optMap_eq_some_map {f : α → Option β} {g : α → β} {l : List α}
    (h : ∀ a ∈ l, f a = some (g a)) : optMap f l = some (l.map g) := by
  induction l with
  | nil => rfl
  | cons a l ih =>
    simp only [optMap, h a (List.mem_cons_self _ _),
      ih fun x hx => h x (List.mem_cons_of_mem _ hx), Option.bind_eq_bind,
      Option.some_bind, List.map_cons]

/-! ### Chunking lemmas -/

theorem chunksAux_nil (bs fuel : ℕ) : chunksAux bs fuel [] = [] := by
  cases fuel <;> rfl

theorem chunksAux_congr {bs : ℕ} (hbs : 1 ≤ bs) :
    ∀ f1 f2 (l : List ℕ), l.length ≤ f1 → l.length ≤ f2 →
      chunksAux bs f1 l = chunksAux bs f2 l := by
  intro f1
  induction f1 with
  | zero =>
    intro f2 l h1 _
    have : l = [] := List.length_eq_zero.mp (Nat.le_zero.mp h1)
    subst this
    rw [chunksAux_nil, chunksAux_nil]
  | succ f1 ih =>
    intro f2 l h1 h2
    match l with
    | [] => rw [chunksAux_nil, chunksAux_nil]
    | x :: xs =>
      match f2 with
      | 0 => simp at h2
      | f2 + 1 =>
        simp only [chunksAux]
        congr 1
        have hlen : ((x :: xs).drop bs).length ≤ f1 := by
          simp only [List.length_drop, List.length_cons] at *
          omega
        have hlen2 : ((x :: xs).drop bs).length ≤ f2 := by
          simp only [List.length_drop, List.length_cons] at *
          omega
        exact ih f2 _ hlen hlen2

theorem chunks_cons {bs : ℕ} (hbs : 1 ≤ bs) (x : ℕ) (xs : List ℕ) :
    chunks bs (x :: xs) = (x :: xs).take bs :: chunks bs ((x :: xs).drop bs) := by
  unfold chunks
  rw [show (x :: xs).length = (x :: xs).length - 1 + 1 by simp]
  simp only [chunksAux]
  congr 1
  apply chunksAux_congr hbs
  · simp only [List.length_drop, List.length_cons]
    omega
  · exact le_refl _

theorem chunks_of_length_le {bs : ℕ} (hbs : 1 ≤ bs) {l : List ℕ}
    (hne : l ≠ []) (hle : l.length ≤ bs) : chunks bs l = [l] := by
  match l with
  | [] => exact absurd rfl hne
  | x :: xs =>
    rw [chunks_cons hbs]
    rw [List.take_of_length_le hle, List.drop_eq_nil_of_le hle]
    simp [chunks, chunksAux_nil]

theorem chunks_flatten {k : ℕ} (hk : 1 ≤ k) (cs : List (List ℕ))
    (h : ∀ c ∈ cs, c.length = k) : chunks k cs.flatten = cs := by
  induction cs with
  | nil => simp [chunks, chunksAux_nil]
  | cons c cs ih =>
    have hc : c.length = k := h c (List.mem_cons_self _ _)
    have hcne : c ≠ [] := by
      intro hc0
      rw [hc0] at hc
      simp at hc
      omega
    have hflat : (c :: cs).flatten = c ++ cs.flatten := rfl
    rw [hflat]
    match hcc : c ++ cs.flatten with
    | [] =>
      rcases List.append_eq_nil.mp hcc with ⟨h1, _⟩
      exact absurd h1 hcne
    | x :: xs =>
      rw [chunks_cons hk, ← hcc]
      rw [List.take_left' hc, List.drop_left' hc]
      rw [ih fun d hd => h d (List.mem_cons_of_mem _ hd)]

theorem flatten_chunks {bs : ℕ} (hbs : 1 ≤ bs) :
    ∀ N (l : List ℕ), l.length ≤ N → (chunks bs l).flatten = l := by
  intro N
  induction N with
  | zero =>
    intro l h
    have : l = [] := List.length_eq_zero.mp (Nat.le_zero.mp h)
    subst this
    simp [chunks, chunksAux_nil]
  | succ N ih =>
    intro l h
    match l with
    | [] => simp [chunks, chunksAux_nil]
    | x :: xs =>
      rw [chunks_cons hbs, List.flatten_cons]
      have hdrop : ((x :: xs).drop bs).length ≤ N := by
        simp only [List.length_drop, List.length_cons] at *
        omega
      rw [ih _ hdrop, List.take_append_drop]

theorem chunks_decomp {bs : ℕ} (hbs : 1 ≤ bs) :
    ∀ N (l : List ℕ), l.length ≤ N → l ≠ [] →
      ∃ front lastc, chunks bs l = front ++ [lastc] ∧
        (∀ c ∈ front, c.length = bs) ∧
        lastc.length = (if l.length % bs = 0 then bs else l.length % bs) := by
  intro N
  induction N with
  | zero =>
    intro l h hne
    exact absurd (List.length_eq_zero.mp (Nat.le_zero.mp h)) hne
  | succ N ih =>
    intro l h hne
    match l with
    | x :: xs =>
      by_cases hle : (x :: xs).length ≤ bs
      · refine ⟨[], x :: xs, ?_, by simp, ?_⟩
        · rw [chunks_of_length_le hbs hne hle]
          rfl
        · rcases Nat.lt_or_ge (x :: xs).length bs with hlt | hge
          · rw [Nat.mod_eq_of_lt hlt, if_neg (by simp)]
          · have : (x :: xs).length = bs := le_antisymm hle hge
            rw [this, Nat.mod_self, if_pos rfl]
      · push_neg at hle
        have hdroplen : ((x :: xs).drop bs).length = (x :: xs).length - bs :=
          List.length_drop _ _
        have hdne : (x :: xs).drop bs ≠ [] := by
          intro hd
          rw [hd] at hdroplen
          simp only [List.length_nil] at hdroplen
          omega
        have hdlen : ((x :: xs).drop bs).length ≤ N := by
          rw [hdroplen]
          have hxlen : (x :: xs).length = xs.length + 1 := List.length_cons _ _
          rw [hxlen] at hle h ⊢
          omega
        obtain ⟨front, lastc, heq, hfront, hlast⟩ := ih _ hdlen hdne
        refine ⟨(x :: xs).take bs :: front, lastc, ?_, ?_, ?_⟩
        · rw [chunks_cons hbs, heq]
          rfl
        · intro c hc
          rcases List.mem_cons.mp hc with hc | hc
          · subst hc
            rw [List.length_take]
            omega
          · exact hfront c hc
        · rw [hlast]
          have hmodeq : ((x :: xs).drop bs).length % bs = (x :: xs).length % bs := by
            have hsplit : (x :: xs).length = bs + ((x :: xs).drop bs).length := by
              rw [hdroplen]
              omega
            rw [hsplit, Nat.add_mod_left]
          rw [hmodeq]

/-! ## Arithmetic primitives (modelled from the spec, §§4.1-4.5: `funcs.py`
is not in the sources) -/

/-- Modelled from the spec: `power_mod(base, exponent, modulus)` computes
`base ^ exponent mod modulus` (§4.1 gives exactly this contract; the
square-and-multiply strategy does not change the value). -/
def power_mod (base exponent modulus : ℕ) : ℕ :=
  base ^ exponent % modulus

/-- Modelled from the spec: `coprimes(a, b)` decides `gcd(a, b) = 1`
(used by `rsa_keygen` through `valid_p` / `valid_q`). -/
def coprimes (a b : ℕ) : Bool :=
  Nat.gcd a b == 1

/-- Modelled from the spec: `multiplicative_inverse(a, m)` returns an `x`
with `a * x ≡ 1 (mod m)` when `gcd(a, m) = 1` and fails with
`NoInverseError` (here `none`) otherwise (§4.2). -/
def multiplicative_inverse (a m : ℕ) : Option ℕ :=
  (List.range m).find? fun x => a * x % m == 1

theorem multiplicative_inverse_spec {a m x : ℕ}
    (h : multiplicative_inverse a m = some x) : a * x % m = 1 := by
  have := List.find?_some h
  simpa using this

theorem multiplicative_inverse_isSome {a m : ℕ} (hm : 1 < m)
    (h : Nat.Coprime a m) : (multiplicative_inverse a m).isSome := by
  obtain ⟨x, hx⟩ := Nat.exists_mul_emod_eq_one_of_coprime h hm
  have hmeq : a * (x % m) % m = a * x % m := Nat.ModEq.mul_left a (Nat.mod_modEq x m)
  refine List.find?_isSome.mpr ⟨x % m, List.mem_range.mpr (Nat.mod_lt _ (by omega)), ?_⟩
  simp only [beq_iff_eq]
  rw [hmeq]
  exact hx

/-- Modelled from the spec: `bitlength(n)` is the number of significant
bits of `n` (Python's `int.bit_length`). -/
def bitlength (n : ℕ) : ℕ :=
  if n = 0 then 0 else Nat.log2 n + 1

/-- Modelled from the spec: `random_odd_number_nbits(bits)` returns an odd
integer with exactly `bits` significant bits, top and bottom bits forced
to 1 and the middle bits drawn from the random source `r` (§4.4). -/
def random_odd_number_nbits (bits r : ℕ) : ℕ :=
  if bits < 2 then 1 else 2 ^ (bits - 1) + 2 * (r % 2 ^ (bits - 2)) + 1

/-- Modelled from the spec: `estimate_k(bit_length, target_error)` derives
a round count whose aggregate false-positive probability stays below the
target error `2 ^ (-t)`; modelled as the least `rounds` with
`4 ^ (-rounds) ≤ 2 ^ (-t)` (§4.3; the exact table value is irrelevant to
the claims, only that the count is positive for a positive target). -/
def estimate_k (_bit_length t : ℕ) : ℕ :=
  (t + 1) / 2

/-- Fuel-driven factorisation `m = 2 ^ s * d` with `d` odd, returning
`(s, d)`; fuel `m` always suffices. -/
def split2s : ℕ → ℕ → ℕ × ℕ
  | 0, m => (0, m)
  | fuel + 1, m =>
    if m % 2 = 0 ∧ m ≠ 0 then
      let sd := split2s fuel (m / 2)
      (sd.1 + 1, sd.2)
    else (0, m)

/-- Squaring phase of one Miller-Rabin witness round: after the initial
power, square up to `j` times; reaching `n - 1` passes the round, hitting
`1` first exposes a non-trivial square root of 1 (composite). -/
def mr_squarings (n : ℕ) : ℕ → ℕ → Bool
  | 0, _ => false
  | j + 1, x =>
    let x' := x * x % n
    if x' = n - 1 then true
    else if x' = 1 then false
    else mr_squarings n j x'

/-- One Miller-Rabin round at a given base: write `n - 1 = 2 ^ s * d`,
compute `base ^ d mod n` and check the standard witness conditions (§4.3). -/
def mr_round (n d s base : ℕ) : Bool :=
  let x := power_mod base d n
  if x = 1 ∨ x = n - 1 then true
  else mr_squarings n (s - 1) x

/-- Modelled from the spec: `miller_rabin(candidate, rounds)` with the
random bases made explicit; even numbers and values `≤ 3` are handled by
direct lookup, and every supplied base must pass its witness round (§4.3). -/
def miller_rabin (n : ℕ) (bases : List ℕ) : Bool :=
  if n < 2 then false
  else if n ≤ 3 then true
  else if n % 2 = 0 then false
  else
    let sd := split2s (n - 1) (n - 1)
    bases.all fun base => mr_round n sd.2 sd.1 base

/-- From `diffie_hellman.py`, `is_generator(g, p)`: rejects `g` outside
`[2, p-1]`, then declares `g` a generator iff no power `g ^ i mod p` with
`i ∈ [1, p-2]` equals 1. -/
def is_generator (g p : ℕ) : Bool :=
  if g < 2 ∨ p - 1 < g then false
  else (List.range' 1 (p - 2)).all fun i => power_mod g i p != 1

/-! ### Block-size lemmas -/

theorem cbsAux_spec : ∀ f n, 1 ≤ n → n ≤ f →
    256 ^ cbsAux f n ≤ n ∧ n < 256 ^ (cbsAux f n + 1) := by
  intro f
  induction f with
  | zero =>
    intro n h1 h2
    omega
  | succ f ih =>
    intro n h1 h2
    by_cases h256 : 256 ≤ n
    · have hdivpos : 1 ≤ n / 256 := (Nat.one_le_div_iff (by norm_num)).mpr h256
      have hdivle : n / 256 ≤ f := by omega
      obtain ⟨hlo, hhi⟩ := ih (n / 256) hdivpos hdivle
      have hstep : cbsAux (f + 1) n = cbsAux f (n / 256) + 1 := by
        simp [cbsAux, h256]
      rw [hstep]
      set k := cbsAux f (n / 256) with hk
      constructor
      · calc 256 ^ (k + 1) = 256 * 256 ^ k := by ring
          _ ≤ 256 * (n / 256) := by omega
          _ ≤ n := Nat.mul_div_le n 256
      · have h1' : n / 256 + 1 ≤ 256 ^ (k + 1) := hhi
        have h2' : n < 256 * (n / 256) + 256 := by omega
        calc n < 256 * (n / 256 + 1) := by omega
          _ ≤ 256 * 256 ^ (k + 1) := by omega
          _ = 256 ^ (k + 1 + 1) := by ring
    · have hstep : cbsAux (f + 1) n = 0 := by
        simp [cbsAux, h256]
      rw [hstep]
      constructor
      · simpa using h1
      · simpa using Nat.lt_of_not_le h256

theorem compute_block_size_spec {n : ℕ} (h : 1 ≤ n) :
    256 ^ compute_block_size n ≤ n ∧ n < 256 ^ (compute_block_size n + 1) :=
  cbsAux_spec n n h le_rfl

theorem compute_block_size_pos {n : ℕ} (h : 256 ≤ n) :
    1 ≤ compute_block_size n := by
  rcases Nat.eq_zero_or_pos (compute_block_size n) with h0 | h1
  · obtain ⟨_, hhi⟩ := compute_block_size_spec (n := n) (by omega)
    rw [h0] at hhi
    norm_num at hhi
    omega
  · exact h1

/-! ## RSA core correctness: decryption inverts encryption on every
residue below `n = p * q` when `e * d ≡ 1 (mod lcm(p-1, q-1))` -/

theorem pow_modEq_self_of_prime_dvd_sub {p m ed : ℕ} (hp : p.Prime)
    (hed : 1 ≤ ed) (hdvd : (p - 1) ∣ ed - 1) : m ^ ed ≡ m [MOD p] := by
  by_cases hpm : p ∣ m
  · have h0 : m ≡ 0 [MOD p] := (Nat.modEq_zero_iff_dvd).mpr hpm
    calc m ^ ed ≡ 0 ^ ed [MOD p] := h0.pow ed
      _ = 0 := by
          rw [Nat.zero_pow]
          omega
      _ ≡ m [MOD p] := h0.symm
  · have hcop : Nat.Coprime m p := (Nat.Prime.coprime_iff_not_dvd hp).mpr hpm |>.symm
    obtain ⟨c, hc⟩ := hdvd
    have hsplit : ed = (p - 1) * c + 1 := by omega
    have hfermat : m ^ (p - 1) ≡ 1 [MOD p] := by
      have := Nat.ModEq.pow_totient hcop
      rwa [Nat.totient_prime hp] at this
    calc m ^ ed = (m ^ (p - 1)) ^ c * m := by
          rw [hsplit, pow_add, pow_mul, pow_one]
      _ ≡ 1 ^ c * m [MOD p] := (hfermat.pow c).mul_right m
      _ = m := by ring

theorem rsa_roundtrip_core {p q e d m : ℕ} (hp : p.Prime) (hq : q.Prime)
    (hpq : p ≠ q) (hed : e * d % Nat.lcm (p - 1) (q - 1) = 1)
    (hm : m < p * q) : power_mod (power_mod m e (p * q)) d (p * q) = m := by
  set L := Nat.lcm (p - 1) (q - 1) with hL
  have hLpos : 0 < L := Nat.lcm_pos (by have := hp.two_le; omega) (by have := hq.two_le; omega)
  have hedpos : 1 ≤ e * d := by
    rcases Nat.eq_zero_or_pos (e * d) with h0 | h1
    · rw [h0] at hed
      simp at hed
    · exact h1
  have hLdvd : L ∣ e * d - 1 := by
    have := Nat.div_add_mod (e * d) L
    rw [hed] at this
    exact ⟨e * d / L, by omega⟩
  have hdvd_p : (p - 1) ∣ e * d - 1 := dvd_trans (Nat.dvd_lcm_left _ _) hLdvd
  have hdvd_q : (q - 1) ∣ e * d - 1 := dvd_trans (Nat.dvd_lcm_right _ _) hLdvd
  have hmodp : m ^ (e * d) ≡ m [MOD p] :=
    pow_modEq_self_of_prime_dvd_sub hp hedpos hdvd_p
  have hmodq : m ^ (e * d) ≡ m [MOD q] :=
    pow_modEq_self_of_prime_dvd_sub hq hedpos hdvd_q
  have hcop : Nat.Coprime p q := (Nat.coprime_primes hp hq).mpr hpq
  have hmodn : m ^ (e * d) ≡ m [MOD p * q] :=
    (Nat.modEq_and_modEq_iff_modEq_mul hcop).mp ⟨hmodp, hmodq⟩
  have hpow : power_mod (power_mod m e (p * q)) d (p * q) = m ^ (e * d) % (p * q) := by
    unfold power_mod
    rw [← Nat.pow_mod, ← pow_mul]
  rw [hpow]
  calc m ^ (e * d) % (p * q) = m % (p * q) := hmodn
    _ = m := Nat.mod_eq_of_lt hm

/-! ## RSA operations (`rsa.py`) -/

/-- From `rsa.py`, `rsa_conversion`: splits the bytes into blocks of
`extract_blocks_size` bytes and exponentiates each block modulo `n`. -/
def rsa_conversion (by_ : List ℕ) (n ex extract_blocks_size : ℕ) : List ℕ :=
  (blocks_from_bytes by_ extract_blocks_size).map fun block => power_mod block ex n

/-- From `rsa.py`, `rsa_encrypt`: splits the plaintext into
`compute_block_size n`-byte blocks, exponentiates each with `e`, renders
each result in `block_size + 1` bytes, and appends one extra transformed
block recording the byte length of the final plaintext block.  `none`
models a raised exception (`block_size = 0` makes `len(by) % block_size`
divide by zero; an oversized value would overflow `to_bytes`). -/
def rsa_encrypt (by_ : List ℕ) (n e : ℕ) : Option (List ℕ) :=
  let block_size := compute_block_size n
  if block_size = 0 then none
  else
    let encrypted_block_size := block_size + 1
    let last_size :=
      if by_.length % block_size = 0 then block_size else by_.length % block_size
    do
      let encrypted ← optMap (fun block => bytes_from_block block encrypted_block_size)
        (rsa_conversion by_ n e block_size)
      let padding ← optMap (fun block => bytes_from_block block encrypted_block_size)
        (rsa_conversion (natToBytes block_size last_size) n e block_size)
      some (encrypted ++ padding).flatten

/-- Shared tail of `rsa_decrypt` and `elgamal_decrypt` (the two Python
functions duplicate this logic verbatim): read the size marker from the
last decrypted block, render the second-to-last block with that many
bytes, every earlier block with `encrypted_block_size - 1` bytes, and
concatenate.  `none` models the `IndexError` on fewer than two blocks and
the `OverflowError` of an oversized `to_bytes`. -/
def decode_blocks (decrypted : List ℕ) (encrypted_block_size : ℕ) : Option (List ℕ) :=
  if 2 ≤ decrypted.length then
    let last_size := decrypted.getLastD 0
    do
      let last_block ← bytes_from_block (decrypted.dropLast.getLastD 0) last_size
      let middles ← optMap (fun block => bytes_from_block block (encrypted_block_size - 1))
        decrypted.dropLast.dropLast
      some (middles.flatten ++ last_block)
  else none

/-- From `rsa.py`, `rsa_decrypt`: splits the ciphertext into
`compute_block_size n + 1`-byte blocks, exponentiates each with `d`, and
reassembles the plaintext from the size marker. -/
def rsa_decrypt (by_ : List ℕ) (n d : ℕ) : Option (List ℕ) :=
  let encrypted_block_size := compute_block_size n + 1
  decode_blocks (rsa_conversion by_ n d encrypted_block_size) encrypted_block_size

/-- From `rsa_digitalsignature.py`, `rsa_sign`: signs by running the full
`rsa_encrypt` pipeline with the private exponent `d` in place of `e`. -/
def rsa_sign (by_ : List ℕ) (n d : ℕ) : Option (List ℕ) :=
  rsa_encrypt by_ n d

/-- From `rsa_digitalsignature.py`, `rsa_verify`: decrypts the signature
with the public exponent and compares the result with the expected
digest; `none` models an exception escaping from `rsa_decrypt`. -/
def rsa_verify (by_ : List ℕ) (n e : ℕ) (signature : List ℕ) : Option Bool :=
  (rsa_decrypt signature n e).map fun dec => dec == by_

/-! ## ElGamal operations (`elgamal.py`) -/

/-- Block loop of `elgamal_encrypt_aux`: the i-th block is encrypted with
the fresh ephemeral key `secrets.choice(range(2, p-1))`, modelled as
`2 + ks i % (p - 3)` for the i-th draw of the random stream `ks`. -/
def elgamal_encrypt_aux_go (g pk_bob p : ℕ) (ks : ℕ → ℕ) : ℕ → List ℕ → List (ℕ × ℕ)
  | _, [] => []
  | i, block :: rest =>
    (power_mod g (2 + ks i % (p - 3)) p,
     block * power_mod pk_bob (2 + ks i % (p - 3)) p % p)
      :: elgamal_encrypt_aux_go g pk_bob p ks (i + 1) rest

/-- From `elgamal.py`, `elgamal_encrypt_aux`: splits the bytes into blocks
and encrypts each block as `(g ^ key mod p, block * pk_bob ^ key mod p)`
with a fresh ephemeral key per block. -/
def elgamal_encrypt_aux (by_ : List ℕ) (g pk_bob p extract_blocks_size : ℕ)
    (ks : ℕ → ℕ) : List (ℕ × ℕ) :=
  elgamal_encrypt_aux_go g pk_bob p ks 0 (blocks_from_bytes by_ extract_blocks_size)

/-- From `elgamal.py`, `elgamal_encrypt`: block-encrypts the message and
then a size-marker block, serialising each `C2` component in
`block_size + 1` bytes and pairing it with its integer `C1` component.
The parameter `k` mirrors the Python signature; the body never reads it
(every ephemeral key is drawn inside `elgamal_encrypt_aux`). -/
def elgamal_encrypt (by_ : List ℕ) (g k pk_bob p : ℕ) (ks : ℕ → ℕ) :
    Option (List (ℕ × List ℕ)) :=
  let block_size := compute_block_size p
  if block_size = 0 then none
  else
    let encrypted_block_size := block_size + 1
    let last_size :=
      if by_.length % block_size = 0 then block_size else by_.length % block_size
    let encrypted := elgamal_encrypt_aux by_ g pk_bob p block_size ks
    do
      let encrC2 ← optMap (fun pr => bytes_from_block pr.2 encrypted_block_size) encrypted
      let padding := elgamal_encrypt_aux (natToBytes block_size last_size) g pk_bob p
        block_size fun i => ks (encrypted.length + i)
      let padC2 ← optMap (fun pr => bytes_from_block pr.2 encrypted_block_size) padding
      some (List.zip (encrypted.map Prod.fst ++ padding.map Prod.fst) (encrC2 ++ padC2))

/-- From `elgamal.py`, `elgamal_decrypt_aux`: for each received pair,
decode `C2` from bytes and multiply by the inverse of `C1 ^ ai mod p`;
a failing inverse models the `NoInverseError` exception. -/
def elgamal_decrypt_aux (listC1 : List ℕ) (listC2 : List (List ℕ)) (ai p : ℕ) :
    Option (List ℕ) :=
  optMap (fun pr =>
      (multiplicative_inverse (power_mod pr.1 ai p) p).map fun inv =>
        bytesToNat pr.2 * inv % p)
    (List.zip listC1 listC2)

/-- From `elgamal.py`, `elgamal_decrypt`: splits the received pairs into
their `C1` and `C2` components, decrypts every block, and reassembles the
plaintext from the size marker exactly as `rsa_decrypt` does. -/
def elgamal_decrypt (by_ : List (ℕ × List ℕ)) (p ai : ℕ) : Option (List ℕ) :=
  let encrypted_block_size := compute_block_size p + 1
  do
    let decrypted ← elgamal_decrypt_aux (by_.map Prod.fst) (by_.map Prod.snd) ai p
    decode_blocks decrypted encrypted_block_size

/-! ## Pipeline lemmas -/

theorem optMap_map (f : β → Option γ) (g : α → β) (l : List α) :
    optMap f (l.map g) = optMap (fun a => f (g a)) l := by
  induction l with
  | nil => rfl
  | cons a l ih => simp only [List.map_cons, optMap, ih]

theorem decode_blocks_spec {front : List (List ℕ)} {lastc : List ℕ} {bs : ℕ}
    (hfront : ∀ c ∈ front, c.length = bs)
    (hbytes : ∀ c ∈ front, ∀ b ∈ c, b < 256)
    (hlastbytes : ∀ b ∈ lastc, b < 256) :
    decode_blocks (front.map bytesToNat ++ [bytesToNat lastc, lastc.length]) (bs + 1)
      = some (front.flatten ++ lastc) := by
  have hsplit : front.map bytesToNat ++ [bytesToNat lastc, lastc.length]
      = (front.map bytesToNat ++ [bytesToNat lastc]) ++ [lastc.length] := by
    simp
  have hlen : 2 ≤ (front.map bytesToNat ++ [bytesToNat lastc, lastc.length]).length := by
    simp
  unfold decode_blocks
  rw [if_pos hlen]
  have hlastD : (front.map bytesToNat ++ [bytesToNat lastc, lastc.length]).getLastD 0
      = lastc.length := by
    rw [hsplit, List.getLastD_concat]
  have hdropL : (front.map bytesToNat ++ [bytesToNat lastc, lastc.length]).dropLast
      = front.map bytesToNat ++ [bytesToNat lastc] := by
    rw [hsplit, List.dropLast_concat]
  have hsecond : (front.map bytesToNat ++ [bytesToNat lastc, lastc.length]).dropLast.getLastD 0
      = bytesToNat lastc := by
    rw [hdropL, List.getLastD_concat]
  have hdrop2 : (front.map bytesToNat ++ [bytesToNat lastc, lastc.length]).dropLast.dropLast
      = front.map bytesToNat := by
    rw [hdropL, List.dropLast_concat]
  rw [hlastD, hsecond, hdrop2]
  have hlastblock : bytes_from_block (bytesToNat lastc) lastc.length = some lastc := by
    unfold bytes_from_block
    rw [if_pos (bytesToNat_lt hlastbytes), natToBytes_bytesToNat hlastbytes]
  have hmiddles : optMap (fun block => bytes_from_block block (bs + 1 - 1))
      (front.map bytesToNat) = some (front.map id) := by
    rw [optMap_map]
    apply optMap_eq_some_map
    intro c hc
    have hclen : c.length = bs := hfront c hc
    have hcb : ∀ b ∈ c, b < 256 := hbytes c hc
    unfold bytes_from_block
    have hlt : bytesToNat c < 256 ^ (bs + 1 - 1) := by
      have := bytesToNat_lt hcb
      rw [hclen] at this
      simpa using this
    rw [if_pos hlt]
    have : natToBytes (bs + 1 - 1) (bytesToNat c) = c := by
      have h1 : bs + 1 - 1 = c.length := by omega
      rw [h1, natToBytes_bytesToNat hcb]
    rw [this]
    rfl
  simp only [hlastblock, hmiddles, Option.bind_eq_bind, Option.some_bind, List.map_id]

/-- Value of `rsa_encrypt` for a modulus of at least one block byte:
the flattened serialisation of the transformed message blocks followed by
the transformed size marker. -/
theorem rsa_encrypt_eq {m : List ℕ} {n e : ℕ} (h256 : 256 ≤ n) :
    rsa_encrypt m n e = some
      (((blocks_from_bytes m (compute_block_size n) ++
          [if m.length % compute_block_size n = 0 then compute_block_size n
           else m.length % compute_block_size n]).map
        (fun b => natToBytes (compute_block_size n + 1) (power_mod b e n))).flatten) := by
  have hbs : 1 ≤ compute_block_size n := compute_block_size_pos h256
  have hnlt : n < 256 ^ (compute_block_size n + 1) :=
    (compute_block_size_spec (n := n) (by omega)).2
  have hbslt : 256 ^ compute_block_size n ≤ n :=
    (compute_block_size_spec (n := n) (by omega)).1
  set bs := compute_block_size n with hbsdef
  set ls := if m.length % bs = 0 then bs else m.length % bs with hls
  have hnpos : 0 < n := by omega
  have henc : ∀ (data : List ℕ),
      optMap (fun block => bytes_from_block block (bs + 1)) (rsa_conversion data n e bs)
        = some ((rsa_conversion data n e bs).map (natToBytes (bs + 1))) := by
    intro data
    apply optMap_eq_some_map
    intro v hv
    unfold rsa_conversion at hv
    obtain ⟨b, _, hb⟩ := List.mem_map.mp hv
    have hvlt : v < n := by
      rw [← hb]
      exact Nat.mod_lt _ hnpos
    unfold bytes_from_block
    rw [if_pos (by omega)]
  have hpad : rsa_conversion (natToBytes bs ls) n e bs = [power_mod ls e n] := by
    unfold rsa_conversion blocks_from_bytes
    have hlslt : ls < 256 ^ bs := by
      have hbslt2 : bs < 256 ^ bs := Nat.lt_pow_self (by norm_num) bs
      have hmlt : m.length % bs < bs := Nat.mod_lt _ (by omega)
      rw [hls]
      split <;> omega
    have hc : chunks bs (natToBytes bs ls) = [natToBytes bs ls] := by
      apply chunks_of_length_le hbs
      · intro hnil
        have := congrArg List.length hnil
        rw [natToBytes_length] at this
        simp at this
        omega
      · rw [natToBytes_length]
    rw [hc]
    simp only [List.map_cons, List.map_nil]
    rw [bytesToNat_natToBytes hlslt]
  have hpadbytes : optMap (fun block => bytes_from_block block (bs + 1)) [power_mod ls e n]
      = some [natToBytes (bs + 1) (power_mod ls e n)] := by
    have hvlt : power_mod ls e n < n := Nat.mod_lt _ hnpos
    simp only [optMap, bytes_from_block]
    rw [if_pos (by omega)]
    rfl
  unfold rsa_encrypt
  rw [if_neg (by omega)]
  simp only [← hbsdef, ← hls, henc, hpad, hpadbytes, Option.bind_eq_bind, Option.some_bind]
  congr 1
  rw [List.map_append]
  simp only [List.map_cons, List.map_nil]
  congr 1
  unfold rsa_conversion
  rw [List.map_map]
  rfl

theorem rsa_conversion_serialized (vals : List ℕ) (dx : ℕ) {n : ℕ}
    (h256 : 256 ≤ n) (hvals : ∀ v ∈ vals, v < n) :
    rsa_conversion ((vals.map (natToBytes (compute_block_size n + 1))).flatten) n dx
      (compute_block_size n + 1) = vals.map fun v => power_mod v dx n := by
  set ebs := compute_block_size n + 1 with hebs
  have hnlt : n < 256 ^ ebs := (compute_block_size_spec (n := n) (by omega)).2
  unfold rsa_conversion blocks_from_bytes
  rw [chunks_flatten (by omega) _ ?hlen]
  case hlen =>
    intro c hc
    obtain ⟨v, _, rfl⟩ := List.mem_map.mp hc
    exact natToBytes_length _ _
  rw [List.map_map, List.map_map]
  apply List.map_congr_left
  intro v hv
  simp only [Function.comp_apply]
  rw [bytesToNat_natToBytes (by have := hvals v hv; omega)]

theorem mem_chunk_mem {bs : ℕ} (hbs : 1 ≤ bs) {m c : List ℕ} {b : ℕ}
    (hc : c ∈ chunks bs m) (hb : b ∈ c) : b ∈ m := by
  have := flatten_chunks hbs m.length m le_rfl
  rw [← this]
  exact List.mem_flatten.mpr ⟨c, hc, hb⟩

/-! ## Claim C1 -/

/-- Claim C1: for every generated RSA key pair ((n, e), d) — i.e. `n = p*q`
for distinct primes with `e*d ≡ 1 (mod lcm(p-1, q-1))` and `n` of at least
nine bits, as `rsa_keygen` guarantees — and every non-empty byte string
`m`, including `m` containing embedded `0x00` bytes and `m` whose length
is an exact multiple of the block size, decryption inverts encryption:
`rsa_decrypt (rsa_encrypt m n e) n d = m`. -/
theorem C1_rsa_roundtrip (p q n e d : ℕ) (m : List ℕ) (hp : p.Prime)
    (hq : q.Prime) (hpq : p ≠ q) (hn : n = p * q) (h256 : 256 ≤ n)
    (hed : e * d % Nat.lcm (p - 1) (q - 1) = 1)
    (hm : m ≠ []) (hbytes : ∀ b ∈ m, b < 256) :
    (rsa_encrypt m n e).bind (fun ct => rsa_decrypt ct n d) = some m := by
  have hbs : 1 ≤ compute_block_size n := compute_block_size_pos h256
  have hbsle : 256 ^ compute_block_size n ≤ n :=
    (compute_block_size_spec (n := n) (by omega)).1
  set bs := compute_block_size n with hbsdef
  set ls := if m.length % bs = 0 then bs else m.length % bs with hls
  have hnpos : 0 < n := by omega
  obtain ⟨front, lastc, hchunks, hfront, hlastlen⟩ :=
    chunks_decomp hbs m.length m le_rfl hm
  have hlsval : lastc.length = ls := hlastlen
  have hmemfront : ∀ c ∈ front, ∀ b ∈ c, b < 256 := by
    intro c hc b hb
    refine hbytes b (mem_chunk_mem hbs ?_ hb)
    rw [hchunks]
    exact List.mem_append_left _ hc
  have hmemlast : ∀ b ∈ lastc, b < 256 := by
    intro b hb
    refine hbytes b (mem_chunk_mem hbs ?_ hb)
    rw [hchunks]
    simp
  have hblocks : blocks_from_bytes m bs = front.map bytesToNat ++ [bytesToNat lastc] := by
    unfold blocks_from_bytes
    rw [hchunks]
    simp
  have hblockslt : ∀ v ∈ blocks_from_bytes m bs ++ [ls], v < n := by
    intro v hv
    rcases List.mem_append.mp hv with hv | hv
    · rw [hblocks] at hv
      rcases List.mem_append.mp hv with hv | hv
      · obtain ⟨c, hc, rfl⟩ := List.mem_map.mp hv
        have := bytesToNat_lt (hmemfront c hc)
        rw [hfront c hc] at this
        omega
      · simp only [List.mem_singleton] at hv
        subst hv
        have := bytesToNat_lt hmemlast
        have hle : lastc.length ≤ bs := by
          rw [hlsval, hls]
          have : m.length % bs < bs := Nat.mod_lt _ (by omega)
          split <;> omega
        have hpow : (256 : ℕ) ^ lastc.length ≤ 256 ^ bs :=
          Nat.pow_le_pow_right (by norm_num) hle
        omega
    · simp only [List.mem_singleton] at hv
      subst hv
      have hbslt : bs < 256 ^ bs := Nat.lt_pow_self (by norm_num) bs
      have : m.length % bs < bs := Nat.mod_lt _ (by omega)
      rw [hls]
      split <;> omega
  rw [rsa_encrypt_eq h256]
  rw [Option.some_bind]
  unfold rsa_decrypt
  have hmapsplit : (blocks_from_bytes m bs ++ [ls]).map
        (fun b => natToBytes (bs + 1) (power_mod b e n))
      = ((blocks_from_bytes m bs ++ [ls]).map (fun b => power_mod b e n)).map
        (natToBytes (bs + 1)) := by
    rw [List.map_map]
    rfl
  rw [← hls, ← hbsdef, hmapsplit]
  have hser := rsa_conversion_serialized
    ((blocks_from_bytes m bs ++ [ls]).map fun b => power_mod b e n)
    d h256 ?hlt
  case hlt =>
    intro v hv
    obtain ⟨b, _, rfl⟩ := List.mem_map.mp hv
    exact Nat.mod_lt _ hnpos
  rw [← hbsdef] at hser
  simp only []
  rw [hser]
  have hroundtrip : ((blocks_from_bytes m bs ++ [ls]).map (fun b => power_mod b e n)).map
        (fun v => power_mod v d n)
      = blocks_from_bytes m bs ++ [ls] := by
    rw [List.map_map]
    have : ∀ v ∈ blocks_from_bytes m bs ++ [ls],
        ((fun v => power_mod v d n) ∘ fun b => power_mod b e n) v = id v := by
      intro v hv
      simp only [Function.comp_apply, id]
      rw [hn]
      exact rsa_roundtrip_core hp hq hpq hed (by rw [← hn]; exact hblockslt v hv)
    rw [List.map_congr_left this, List.map_id]
  rw [hroundtrip]
  have hshape : blocks_from_bytes m bs ++ [ls]
      = front.map bytesToNat ++ [bytesToNat lastc, lastc.length] := by
    rw [hblocks, hlsval]
    simp
  rw [hshape, decode_blocks_spec hfront hmemfront hmemlast]
  have hjoin : front.flatten ++ lastc = m := by
    have := flatten_chunks hbs m.length m le_rfl
    rw [hchunks] at this
    rw [← this]
    simp
  rw [hjoin]

/-- Witness for C1: the key pair n = 299 = 13 * 23, e = 5, d = 53
(5 * 53 = 265 ≡ 1 mod lcm(12, 22) = 132) round-trips the message
[0x00, 0x07, 0x00], which contains embedded zero bytes and whose length 3
is an exact multiple of the block size 1. -/
theorem C1_rsa_roundtrip_witness :
    Nat.Prime 13 ∧ Nat.Prime 23 ∧ (299 : ℕ) = 13 * 23 ∧
      5 * 53 % Nat.lcm 12 22 = 1 ∧
      (rsa_encrypt [0, 7, 0] 299 5).bind (fun ct => rsa_decrypt ct 299 53)
        = some [0, 7, 0] :=
  ⟨by norm_num, by norm_num, by norm_num, by decide,
    C1_rsa_roundtrip 13 23 299 5 53 [0, 7, 0] (by norm_num) (by norm_num)
      (by decide) (by norm_num) (by norm_num) (by decide) (by decide)
      (by decide)⟩

/-! ## Claim C10 -/

/-- Claim C10: for the empty byte string, `rsa_encrypt b'' n e` succeeds
and returns a ciphertext consisting of only the transformed size-marker
block (the marker records `block_size` itself, since `0 % block_size = 0`),
but `rsa_decrypt` applied to that ciphertext returns no byte string at
all: the list of decrypted blocks has length one, so the access to the
second-to-last block is out of bounds and the round trip is not defined
for empty input. -/
theorem C10_rsa_empty (n e d : ℕ) (h256 : 256 ≤ n) :
    rsa_encrypt [] n e = some (natToBytes (compute_block_size n + 1)
        (power_mod (compute_block_size n) e n)) ∧
      rsa_decrypt (natToBytes (compute_block_size n + 1)
        (power_mod (compute_block_size n) e n)) n d = none := by
  have hbs : 1 ≤ compute_block_size n := compute_block_size_pos h256
  have hnlt : n < 256 ^ (compute_block_size n + 1) :=
    (compute_block_size_spec (n := n) (by omega)).2
  have hnpos : 0 < n := by omega
  set bs := compute_block_size n with hbsdef
  constructor
  · rw [rsa_encrypt_eq h256]
    have hempty : blocks_from_bytes [] bs = [] := by
      unfold blocks_from_bytes chunks
      simp [chunksAux_nil]
    rw [← hbsdef, hempty]
    simp
  · unfold rsa_decrypt
    have hctne : natToBytes (bs + 1) (power_mod bs e n) ≠ [] := by
      intro hnil
      have := congrArg List.length hnil
      rw [natToBytes_length] at this
      simp at this
    have hconv : rsa_conversion (natToBytes (bs + 1) (power_mod bs e n)) n d (bs + 1)
        = [power_mod (power_mod bs e n) d n] := by
      unfold rsa_conversion blocks_from_bytes
      rw [chunks_of_length_le (by omega) hctne (le_of_eq (natToBytes_length _ _))]
      have hval : power_mod bs e n < 256 ^ (bs + 1) := by
        have : power_mod bs e n < n := Nat.mod_lt _ hnpos
        omega
      simp only [List.map_cons, List.map_nil]
      rw [bytesToNat_natToBytes hval]
    rw [← hbsdef]
    simp only []
    rw [hconv]
    unfold decode_blocks
    rw [if_neg (by simp)]

/-- Witness for C10: with n = 299, e = 5, d = 53 the empty message
encrypts to the two-byte marker block [0, 1] and fails to decrypt. -/
theorem C10_rsa_empty_witness :
    (256 : ℕ) ≤ 299 ∧
      (rsa_encrypt [] 299 5 = some (natToBytes (compute_block_size 299 + 1)
          (power_mod (compute_block_size 299) 5 299)) ∧
        rsa_decrypt (natToBytes (compute_block_size 299 + 1)
          (power_mod (compute_block_size 299) 5 299)) 299 53 = none) :=
  ⟨by norm_num, C10_rsa_empty 299 5 53 (by norm_num)⟩

/-! ## Claim C7 -/

/-- Claim C7 counterexample: under the generated key pair
n = 299 = 13 * 23, e = 5, d = 53 (5 * 53 ≡ 1 mod lcm(12, 22)), the
one-byte digest [0x05] has integer value 5 < 299 = n, yet its signature
`rsa_sign [5] 299 53` is 4 bytes long — two transformed blocks of
`block_size + 1 = 2` bytes — and not the single transformed block (2
bytes) the claim asserts. -/
theorem C7_counterexample :
    bytesToNat [5] < 299 ∧ 5 * 53 % Nat.lcm 12 22 = 1 ∧
      (rsa_sign [5] 299 53).map List.length = some 4 ∧
      (rsa_sign [5] 299 53).map List.length
        ≠ some (1 * (compute_block_size 299 + 1)) := by
  refine ⟨by decide, by decide, by decide, by decide⟩

/-- Claim C7 amended: `rsa_sign` applies the RSA decrypt-direction
transform (exponent d) to the digest through the full `rsa_encrypt` block
pipeline, which always appends the transformed size-marker block; hence a
digest that fits in a single block (`1 ≤ len ≤ block_size`) yields a
signature of exactly two transformed blocks, the transformed digest block
plus the transformed size marker. -/
theorem C7_sign_two_blocks (by_ : List ℕ) (n d : ℕ) (h256 : 256 ≤ n)
    (h1 : 1 ≤ by_.length) (h2 : by_.length ≤ compute_block_size n) :
    (rsa_sign by_ n d).map List.length = some (2 * (compute_block_size n + 1)) := by
  have hbs : 1 ≤ compute_block_size n := compute_block_size_pos h256
  unfold rsa_sign
  rw [rsa_encrypt_eq h256]
  have hne : by_ ≠ [] := by
    intro hnil
    rw [hnil] at h1
    simp at h1
  have hblocks : blocks_from_bytes by_ (compute_block_size n) = [bytesToNat by_] := by
    unfold blocks_from_bytes
    rw [chunks_of_length_le hbs hne h2]
    rfl
  rw [hblocks]
  simp only [Option.map_some, Option.map_some', List.map_cons, List.map_nil,
    List.cons_append, List.nil_append, List.flatten_cons, List.flatten_nil,
    List.append_nil, List.length_append, natToBytes_length]
  congr 1
  ring

/-- Witness for the amended C7: the one-byte digest [0x05] under n = 299,
d = 53 produces a signature of 4 = 2 * 2 bytes. -/
theorem C7_sign_two_blocks_witness :
    (256 : ℕ) ≤ 299 ∧ 1 ≤ ([5] : List ℕ).length ∧
      ([5] : List ℕ).length ≤ compute_block_size 299 ∧
      (rsa_sign [5] 299 53).map List.length = some (2 * (compute_block_size 299 + 1)) :=
  ⟨by norm_num, by decide, by decide,
    C7_sign_two_blocks [5] 299 53 (by norm_num) (by decide) (by decide)⟩

/-! ## Claim C9 -/

/-- Claim C9: the parameter `k` of `elgamal_encrypt` has no influence on
the result: for the same sequence of internal random draws `ks`, any two
values `k1`, `k2` produce identical ciphertexts, because every per-block
ephemeral key is drawn freshly inside the function and `k` is never read. -/
theorem C9_elgamal_k_unused (by_ : List ℕ) (g k1 k2 pk_bob p : ℕ) (ks : ℕ → ℕ) :
    elgamal_encrypt by_ g k1 pk_bob p ks = elgamal_encrypt by_ g k2 pk_bob p ks := rfl

/-! ## Claim C4 -/

/-- Claim C4: for every prime `p` and every `g` with `2 ≤ g ≤ p - 1`,
`is_generator g p` returns true if and only if `g ^ k mod p ≠ 1` for every
`k` in `[1, p-2]` (the function scans exactly Python's `range(1, p-1)`). -/
theorem C4_is_generator_iff (g p : ℕ) (hp : p.Prime) (hg2 : 2 ≤ g)
    (hgp : g ≤ p - 1) :
    is_generator g p = true ↔ ∀ k, 1 ≤ k → k ≤ p - 2 → power_mod g k p ≠ 1 := by
  unfold is_generator
  rw [if_neg (by omega)]
  rw [List.all_eq_true]
  constructor
  · intro h k hk1 hk2
    have hmem : k ∈ List.range' 1 (p - 2) := by
      rw [List.mem_range'_1]
      omega
    have := h k hmem
    simpa using this
  · intro h k hmem
    rw [List.mem_range'_1] at hmem
    simpa using h k (by omega) (by omega)

/-- Witness for C4: p = 7 with g = 3 (a primitive root mod 7). -/
theorem C4_is_generator_iff_witness :
    Nat.Prime 7 ∧ (2 : ℕ) ≤ 3 ∧ (3 : ℕ) ≤ 7 - 1 ∧
      (is_generator 3 7 = true ↔ ∀ k, 1 ≤ k → k ≤ 7 - 2 → power_mod 3 k 7 ≠ 1) ∧
      is_generator 3 7 = true :=
  ⟨by norm_num, by norm_num, by norm_num,
    C4_is_generator_iff 3 7 (by norm_num) (by norm_num) (by norm_num), by decide⟩

/-! ## Claim C2 machinery -/

theorem elgamal_encrypt_aux_go_cons (g pk p : ℕ) (ks : ℕ → ℕ) (i b : ℕ) (B : List ℕ) :
    elgamal_encrypt_aux_go g pk p ks i (b :: B)
      = (power_mod g (2 + ks i % (p - 3)) p,
         b * power_mod pk (2 + ks i % (p - 3)) p % p)
          :: elgamal_encrypt_aux_go g pk p ks (i + 1) B := rfl

theorem elgamal_encrypt_aux_go_append (g pk p : ℕ) (ks : ℕ → ℕ) :
    ∀ (A B : List ℕ) (i : ℕ),
      elgamal_encrypt_aux_go g pk p ks i (A ++ B)
        = elgamal_encrypt_aux_go g pk p ks i A
          ++ elgamal_encrypt_aux_go g pk p ks (i + A.length) B := by
  intro A
  induction A with
  | nil =>
    intro B i
    simp [elgamal_encrypt_aux_go]
  | cons a A ih =>
    intro B i
    rw [List.cons_append, elgamal_encrypt_aux_go_cons, elgamal_encrypt_aux_go_cons,
      ih B (i + 1), List.cons_append, List.length_cons]
    have : i + 1 + A.length = i + (A.length + 1) := by omega
    rw [this]

theorem elgamal_encrypt_aux_go_length (g pk p : ℕ) (ks : ℕ → ℕ) :
    ∀ (B : List ℕ) (i : ℕ), (elgamal_encrypt_aux_go g pk p ks i B).length = B.length := by
  intro B
  induction B with
  | nil => intro i; rfl
  | cons b B ih =>
    intro i
    rw [elgamal_encrypt_aux_go_cons, List.length_cons, List.length_cons, ih]

theorem elgamal_encrypt_aux_go_keyshift (g pk p : ℕ) (ks : ℕ → ℕ) (j : ℕ) :
    ∀ (B : List ℕ) (i : ℕ),
      elgamal_encrypt_aux_go g pk p (fun t => ks (j + t)) i B
        = elgamal_encrypt_aux_go g pk p ks (j + i) B := by
  intro B
  induction B with
  | nil => intro i; rfl
  | cons b B ih =>
    intro i
    rw [elgamal_encrypt_aux_go_cons, elgamal_encrypt_aux_go_cons, ih]
    have : j + (i + 1) = j + i + 1 := by omega
    rw [this]

theorem elgamal_encrypt_aux_go_lt {g pk p : ℕ} (hppos : 0 < p) (ks : ℕ → ℕ) :
    ∀ (B : List ℕ) (i : ℕ) (pr : ℕ × ℕ),
      pr ∈ elgamal_encrypt_aux_go g pk p ks i B → pr.2 < p := by
  intro B
  induction B with
  | nil =>
    intro i pr hpr
    simp [elgamal_encrypt_aux_go] at hpr
  | cons b B ih =>
    intro i pr hpr
    rw [elgamal_encrypt_aux_go_cons] at hpr
    rcases List.mem_cons.mp hpr with hpr | hpr
    · subst hpr
      exact Nat.mod_lt _ hppos
    · exact ih _ _ hpr

/-- Value of `elgamal_encrypt` for a modulus of at least one block byte:
the transformed message blocks followed by the transformed size marker,
each pair carrying its `C1` integer and the `block_size + 1`-byte
serialisation of its `C2` component. -/
theorem elgamal_encrypt_eq {m : List ℕ} {g k pub p : ℕ} {ks : ℕ → ℕ}
    (h256 : 256 ≤ p) :
    elgamal_encrypt m g k pub p ks = some
      ((elgamal_encrypt_aux_go g pub p ks 0
          (blocks_from_bytes m (compute_block_size p) ++
            [if m.length % compute_block_size p = 0 then compute_block_size p
             else m.length % compute_block_size p])).map
        fun pr => (pr.1, natToBytes (compute_block_size p + 1) pr.2)) := by
  have hbs : 1 ≤ compute_block_size p := compute_block_size_pos h256
  have hplt : p < 256 ^ (compute_block_size p + 1) :=
    (compute_block_size_spec (n := p) (by omega)).2
  set bs := compute_block_size p with hbsdef
  set ls := if m.length % bs = 0 then bs else m.length % bs with hls
  have hppos : 0 < p := by omega
  have hmarker : blocks_from_bytes (natToBytes bs ls) bs = [ls] := by
    unfold blocks_from_bytes
    have hlslt : ls < 256 ^ bs := by
      have hbslt2 : bs < 256 ^ bs := Nat.lt_pow_self (by norm_num) bs
      have hmlt : m.length % bs < bs := Nat.mod_lt _ (by omega)
      rw [hls]
      split <;> omega
    have hc : chunks bs (natToBytes bs ls) = [natToBytes bs ls] := by
      apply chunks_of_length_le hbs
      · intro hnil
        have := congrArg List.length hnil
        rw [natToBytes_length] at this
        simp at this
        omega
      · rw [natToBytes_length]
    rw [hc]
    simp only [List.map_cons, List.map_nil]
    rw [bytesToNat_natToBytes hlslt]
  have hc2 : ∀ (ks' : ℕ → ℕ) (B : List ℕ) (i : ℕ),
      optMap (fun pr => bytes_from_block pr.2 (bs + 1))
          (elgamal_encrypt_aux_go g pub p ks' i B)
        = some ((elgamal_encrypt_aux_go g pub p ks' i B).map
            fun pr => natToBytes (bs + 1) pr.2) := by
    intro ks' B i
    apply optMap_eq_some_map
    intro pr hpr
    have hlt : pr.2 < p := elgamal_encrypt_aux_go_lt hppos ks' B i pr hpr
    unfold bytes_from_block
    rw [if_pos (by omega)]
  unfold elgamal_encrypt
  rw [if_neg (by omega)]
  simp only [← hbsdef, ← hls]
  unfold elgamal_encrypt_aux
  rw [hmarker]
  rw [hc2, hc2]
  simp only [Option.bind_eq_bind, Option.some_bind]
  rw [elgamal_encrypt_aux_go_keyshift g pub p ks
    (elgamal_encrypt_aux_go g pub p ks 0 (blocks_from_bytes m bs)).length [ls] 0]
  rw [elgamal_encrypt_aux_go_length, Nat.add_zero]
  have hjoin := elgamal_encrypt_aux_go_append g pub p ks (blocks_from_bytes m bs) [ls] 0
  rw [Nat.zero_add] at hjoin
  rw [hjoin, List.map_append]
  congr 1
  rw [List.zip_append (by simp)]
  rw [List.zip_map' Prod.fst (fun pr => natToBytes (bs + 1) pr.2),
    List.zip_map' Prod.fst (fun pr => natToBytes (bs + 1) pr.2)]

theorem chunks_length_le {bs : ℕ} (hbs : 1 ≤ bs) :
    ∀ N (l : List ℕ), l.length ≤ N → ∀ c ∈ chunks bs l, c.length ≤ bs := by
  intro N
  induction N with
  | zero =>
    intro l h c hc
    have : l = [] := List.length_eq_zero.mp (Nat.le_zero.mp h)
    subst this
    simp [chunks, chunksAux_nil] at hc
  | succ N ih =>
    intro l h c hc
    match l with
    | [] => simp [chunks, chunksAux_nil] at hc
    | x :: xs =>
      rw [chunks_cons hbs] at hc
      rcases List.mem_cons.mp hc with hc | hc
      · subst hc
        simp [List.length_take]
      · have hdlen : ((x :: xs).drop bs).length ≤ N := by
          rw [List.length_drop]
          have := List.length_cons x xs
          omega
        exact ih _ hdlen c hc

/-- Every block produced from a byte message, and the size marker, is
strictly below the modulus. -/
theorem message_blocks_lt {m : List ℕ} {modn : ℕ} (h256 : 256 ≤ modn)
    (hbytes : ∀ b ∈ m, b < 256) :
    ∀ v ∈ blocks_from_bytes m (compute_block_size modn) ++
        [if m.length % compute_block_size modn = 0 then compute_block_size modn
         else m.length % compute_block_size modn], v < modn := by
  have hbs : 1 ≤ compute_block_size modn := compute_block_size_pos h256
  have hbsle : 256 ^ compute_block_size modn ≤ modn :=
    (compute_block_size_spec (n := modn) (by omega)).1
  set bs := compute_block_size modn with hbsdef
  intro v hv
  rcases List.mem_append.mp hv with hv | hv
  · unfold blocks_from_bytes at hv
    obtain ⟨c, hc, rfl⟩ := List.mem_map.mp hv
    have hclen : c.length ≤ bs := chunks_length_le hbs m.length m le_rfl c hc
    have hcb : ∀ b ∈ c, b < 256 := fun b hb => hbytes b (mem_chunk_mem hbs hc hb)
    have h1 := bytesToNat_lt hcb
    have h2 : (256 : ℕ) ^ c.length ≤ 256 ^ bs := Nat.pow_le_pow_right (by norm_num) hclen
    omega
  · simp only [List.mem_singleton] at hv
    subst hv
    have hbslt : bs < 256 ^ bs := Nat.lt_pow_self (by norm_num) bs
    have : m.length % bs < bs := Nat.mod_lt _ (by omega)
    split <;> omega

/-- Reassembling the transformed-then-inverted blocks of a non-empty byte
message (the blocks themselves followed by the size marker) recovers the
message. -/
theorem decode_blocks_of_message {m : List ℕ} {modn : ℕ} (h256 : 256 ≤ modn)
    (hm : m ≠ []) (hbytes : ∀ b ∈ m, b < 256) :
    decode_blocks (blocks_from_bytes m (compute_block_size modn) ++
        [if m.length % compute_block_size modn = 0 then compute_block_size modn
         else m.length % compute_block_size modn]) (compute_block_size modn + 1)
      = some m := by
  have hbs : 1 ≤ compute_block_size modn := compute_block_size_pos h256
  set bs := compute_block_size modn with hbsdef
  set ls := if m.length % bs = 0 then bs else m.length % bs with hls
  obtain ⟨front, lastc, hchunks, hfront, hlastlen⟩ :=
    chunks_decomp hbs m.length m le_rfl hm
  have hmemfront : ∀ c ∈ front, ∀ b ∈ c, b < 256 := by
    intro c hc b hb
    refine hbytes b (mem_chunk_mem hbs ?_ hb)
    rw [hchunks]
    exact List.mem_append_left _ hc
  have hmemlast : ∀ b ∈ lastc, b < 256 := by
    intro b hb
    refine hbytes b (mem_chunk_mem hbs ?_ hb)
    rw [hchunks]
    simp
  have hshape : blocks_from_bytes m bs ++ [ls]
      = front.map bytesToNat ++ [bytesToNat lastc, lastc.length] := by
    unfold blocks_from_bytes
    rw [hchunks, hls, ← hlastlen]
    simp
  rw [hshape, decode_blocks_spec hfront hmemfront hmemlast]
  have hjoin : front.flatten ++ lastc = m := by
    have := flatten_chunks hbs m.length m le_rfl
    rw [hchunks] at this
    rw [← this]
    simp
  rw [hjoin]

/-- One decrypted ElGamal block recovers the plaintext block: the inverse
of `C1 ^ priv mod p` exists and cancels the mask `pub ^ key mod p`. -/
theorem elgamal_block_core {p g priv b : ℕ} (key : ℕ) (hp : p.Prime)
    (hgp : ¬ p ∣ g) (hb : b < p) :
    ∃ inv, multiplicative_inverse (power_mod (power_mod g key p) priv p) p = some inv ∧
      b * power_mod (power_mod g priv p) key p % p * inv % p = b := by
  have hp2 : 2 ≤ p := hp.two_le
  have hx : power_mod (power_mod g key p) priv p = g ^ (key * priv) % p := by
    unfold power_mod
    rw [← Nat.pow_mod, ← pow_mul]
  have hy : power_mod (power_mod g priv p) key p = g ^ (key * priv) % p := by
    unfold power_mod
    rw [← Nat.pow_mod, ← pow_mul, Nat.mul_comm priv key]
  have hcopg : Nat.Coprime g p :=
    Nat.Coprime.symm ((Nat.Prime.coprime_iff_not_dvd hp).mpr hgp)
  have hcoppow : Nat.Coprime (g ^ (key * priv)) p := Nat.Coprime.pow_left _ hcopg
  have hcop : Nat.Coprime (g ^ (key * priv) % p) p := by
    unfold Nat.Coprime at hcoppow ⊢
    rw [← Nat.gcd_rec]
    rwa [Nat.gcd_comm] at hcoppow
  have hsome := multiplicative_inverse_isSome (by omega) hcop
  obtain ⟨inv, hinv⟩ := Option.isSome_iff_exists.mp hsome
  refine ⟨inv, by rw [hx]; exact hinv, ?_⟩
  have hspec : g ^ (key * priv) % p * inv % p = 1 := multiplicative_inverse_spec hinv
  rw [hy]
  set S := g ^ (key * priv) % p with hS
  have hstep : b * S % p * inv % p = b * (S * inv) % p := by
    rw [Nat.mod_mul_mod, Nat.mul_assoc]
  rw [hstep]
  have hmodeq : S * inv ≡ 1 [MOD p] := by
    unfold Nat.ModEq
    rw [Nat.mod_eq_of_lt (show (1 : ℕ) < p by omega)]
    exact hspec
  calc b * (S * inv) % p = b * 1 % p := (Nat.ModEq.mul_left b hmodeq)
    _ = b := by rw [Nat.mul_one, Nat.mod_eq_of_lt hb]

theorem elgamal_decrypt_aux_of_go {p g priv pub : ℕ} (hp : p.Prime)
    (h256 : 256 ≤ p) (hgp : ¬ p ∣ g) (hpub : pub = power_mod g priv p)
    (ks : ℕ → ℕ) :
    ∀ (B : List ℕ) (i : ℕ), (∀ b ∈ B, b < p) →
      elgamal_decrypt_aux
        (((elgamal_encrypt_aux_go g pub p ks i B).map
            fun pr => (pr.1, natToBytes (compute_block_size p + 1) pr.2)).map Prod.fst)
        (((elgamal_encrypt_aux_go g pub p ks i B).map
            fun pr => (pr.1, natToBytes (compute_block_size p + 1) pr.2)).map Prod.snd)
        priv p
      = some B := by
  have hplt : p < 256 ^ (compute_block_size p + 1) :=
    (compute_block_size_spec (n := p) (by omega)).2
  intro B
  induction B with
  | nil => intro i _; rfl
  | cons b B ih =>
    intro i hB
    have hb : b < p := hB b (List.mem_cons_self _ _)
    unfold elgamal_decrypt_aux
    rw [elgamal_encrypt_aux_go_cons]
    rw [List.zip_map' Prod.fst Prod.snd]
    simp only [List.map_cons, optMap, Prod.mk.eta, List.map_id']
    obtain ⟨inv, hinv, hdec⟩ :=
      elgamal_block_core (2 + ks i % (p - 3)) hp hgp hb
    have hc2lt : b * power_mod pub (2 + ks i % (p - 3)) p % p < p :=
      Nat.mod_lt _ (by omega)
    rw [← hpub] at hdec
    rw [bytesToNat_natToBytes (by omega)]
    rw [hinv]
    have htail := ih (i + 1) fun x hx => hB x (List.mem_cons_of_mem _ hx)
    unfold elgamal_decrypt_aux at htail
    rw [List.zip_map' Prod.fst Prod.snd] at htail
    simp only [Prod.mk.eta, List.map_id'] at htail
    rw [htail]
    simp only [Option.map_some', Option.bind_eq_bind, Option.some_bind]
    rw [hdec]

/-- Claim C2 (amended to non-empty messages and primes of at least nine
bits): for every valid ElGamal key pair over a prime `p ≥ 256` (so the
block size is positive; for smaller `p` encryption itself raises) with
`p` not dividing `g` and `pub = g ^ priv mod p`, for arbitrary `k`,
arbitrary non-empty byte strings `m`, and every choice of the per-block
ephemeral random draws `ks`, decryption inverts encryption. -/
theorem C2_elgamal_roundtrip (p g priv pub k : ℕ) (m : List ℕ) (ks : ℕ → ℕ)
    (hp : p.Prime) (h256 : 256 ≤ p) (hgp : ¬ p ∣ g)
    (hpub : pub = power_mod g priv p) (hm : m ≠ []) (hbytes : ∀ b ∈ m, b < 256) :
    (elgamal_encrypt m g k pub p ks).bind (fun ct => elgamal_decrypt ct p priv)
      = some m := by
  rw [elgamal_encrypt_eq h256, Option.some_bind]
  unfold elgamal_decrypt
  rw [elgamal_decrypt_aux_of_go hp h256 hgp hpub ks _ 0
    (message_blocks_lt h256 hbytes)]
  simp only [Option.bind_eq_bind, Option.some_bind]
  exact decode_blocks_of_message h256 hm hbytes

/-- Witness for the amended C2: p = 257 (prime, block size 1), generator
g = 3, private key 2, public key 9 = 3^2 mod 257, message "H" = [72],
ephemeral draws all equal to 5. -/
theorem C2_elgamal_roundtrip_witness :
    Nat.Prime 257 ∧ ¬ (257 : ℕ) ∣ 3 ∧ (9 : ℕ) = power_mod 3 2 257 ∧
      (elgamal_encrypt [72] 3 0 9 257 (fun _ => 5)).bind
        (fun ct => elgamal_decrypt ct 257 2) = some [72] :=
  ⟨by norm_num, by decide, by decide,
    C2_elgamal_roundtrip 257 3 2 9 0 [72] (fun _ => 5) (by norm_num)
      (by norm_num) (by decide) (by decide) (by decide) (by decide)⟩

set_option maxRecDepth 4000 in
/-- Claim C2 counterexample, two failing instances of the claim's
quantification over "every valid ElGamal key pair" and "arbitrary byte
strings m".  First: with the valid key pair p = 257 (prime), g = 3 (a
generator in the sense of `is_generator`), priv = 2,
pub = 3 ^ 2 mod 257 = 9, the empty byte string encrypts successfully to
the size-marker pair alone, but decryption fails (the decrypted block
list has length one, so the access to the second-to-last block is out of
bounds): the round trip returns no byte string instead of b''.  Second:
with the valid key pair p = 23 (prime, reachable from
`diffie_primes(8)`), g = 5 (a generator), priv = 3,
pub = 5 ^ 3 mod 23 = 10, even the non-empty message [72] fails:
`compute_block_size 23 = 0`, so encryption itself raises
(`len(by) % block_size` divides by zero) and no ciphertext exists. -/
theorem C2_counterexample :
    (Nat.Prime 257 ∧ is_generator 3 257 = true ∧ (9 : ℕ) = power_mod 3 2 257 ∧
      (elgamal_encrypt [] 3 0 9 257 (fun _ => 5)).bind
        (fun ct => elgamal_decrypt ct 257 2) = none) ∧
      (Nat.Prime 23 ∧ is_generator 5 23 = true ∧ (10 : ℕ) = power_mod 5 3 23 ∧
        elgamal_encrypt [72] 5 0 10 23 (fun _ => 5) = none) :=
  ⟨⟨by norm_num, by decide, by decide, by decide⟩,
    ⟨by norm_num, by decide, by decide, by decide⟩⟩

/-! ## Prime search and key generation (`rsa.py` `rsa_keygen`,
`diffie_hellman.py` `diffie_primes` / `generate_generator`) -/

/-- Bundle of random draws feeding one prime search: the initial
candidate draw per outer key-generation iteration, the draw for each
retried candidate, and the Miller-Rabin base draw per candidate and
round. -/
structure RandomStreams where
  init : ℕ → ℕ
  cand : ℕ → ℕ → ℕ
  base : ℕ → ℕ → ℕ → ℕ

/-- Retry loop of `random_probable_prime`: candidate `j = 0` is the given
start candidate, later candidates are fresh draws of the same bit length;
a candidate is accepted when it passes `miller_rabin` with the bases drawn
for it and satisfies `test`; the budget `fuel` starts at `limit`. -/
def random_probable_prime_go (bits start : ℕ) (cand : ℕ → ℕ)
    (bst : ℕ → ℕ → ℕ) (kr : ℕ) (test : ℕ → Bool) : ℕ → ℕ → Option ℕ
  | 0, _ => none
  | fuel + 1, j =>
    let c := if j = 0 then start else random_odd_number_nbits bits (cand j)
    if miller_rabin c ((List.range kr).map (bst j)) && test c then some c
    else random_probable_prime_go bits start cand bst kr test fuel (j + 1)

/-- Modelled from the spec: `random_probable_prime(start_candidate, k,
test_func, limit)` repeatedly tests random odd candidates of the bit
length of `start_candidate` against Miller-Rabin at `k` rounds and the
caller-supplied predicate; it retries up to `limit` times and fails with
`PrimeSearchExhausted` (`none`) when the budget is exhausted (§4.4). -/
def random_probable_prime (start : ℕ) (cand : ℕ → ℕ) (bst : ℕ → ℕ → ℕ)
    (kr limit : ℕ) (test : ℕ → Bool) : Option ℕ :=
  random_probable_prime_go (bitlength start) start cand bst kr test limit 0

theorem random_probable_prime_go_spec {bits start : ℕ} {cand : ℕ → ℕ}
    {bst : ℕ → ℕ → ℕ} {kr : ℕ} {test : ℕ → Bool} :
    ∀ fuel j c, random_probable_prime_go bits start cand bst kr test fuel j = some c →
      (∃ bases : List ℕ, bases.length = kr ∧ miller_rabin c bases = true) ∧
        test c = true := by
  intro fuel
  induction fuel with
  | zero => intro j c h; exact absurd h (by simp [random_probable_prime_go])
  | succ fuel ih =>
    intro j c h
    simp only [random_probable_prime_go] at h
    revert h
    generalize (if j = 0 then start else random_odd_number_nbits bits (cand j)) = cdt
    intro h
    split at h
    · next hcond =>
      have hcond' : miller_rabin cdt ((List.range kr).map (bst j)) = true ∧
          test cdt = true := by
        simpa using hcond
      injection h with h2
      subst h2
      exact ⟨⟨(List.range kr).map (bst j), by simp, hcond'.1⟩, hcond'.2⟩
    · exact ih _ _ h

theorem random_probable_prime_spec {start : ℕ} {cand : ℕ → ℕ}
    {bst : ℕ → ℕ → ℕ} {kr limit c : ℕ} {test : ℕ → Bool}
    (h : random_probable_prime start cand bst kr limit test = some c) :
    (∃ bases : List ℕ, bases.length = kr ∧ miller_rabin c bases = true) ∧
      test c = true :=
  random_probable_prime_go_spec limit 0 c h

theorem random_probable_prime_go_exhausted {bits start : ℕ} {cand : ℕ → ℕ}
    {bst : ℕ → ℕ → ℕ} {kr : ℕ} {test : ℕ → Bool}
    (htest : ∀ c, test c = false) :
    ∀ fuel j, random_probable_prime_go bits start cand bst kr test fuel j = none := by
  intro fuel
  induction fuel with
  | zero => intro j; rfl
  | succ fuel ih =>
    intro j
    simp only [random_probable_prime_go, htest, Bool.and_false]
    exact ih (j + 1)

/-- From `rsa.py`, the outer `while not valid_d` loop of `rsa_keygen`,
iterating complete (p, q, d) draws.  Conditions modelled exactly:
`p ≥ 2^(p_size-1)·√2` as `2·2^(2(p_size-1)) ≤ p²` (exact for integers),
and `|p - q| ≥ 2^(nlen/2 - 100)` with truncated natural subtraction in
the exponent, which for `nlen/2 < 100` is the threshold 1 and agrees with
Python's comparison of a nonzero integer against the float `2**negative`.
The Miller-Rabin round count is the hardcoded `k = 12` of the source. -/
def rsa_keygen_go (nlen e tries : ℕ) (sp sq : RandomStreams) :
    ℕ → ℕ → Option (Option (ℕ × ℕ × ℕ × ℕ × ℕ))
  | 0, _ => none
  | fuel + 1, i =>
    let p_size := (nlen + 1) / 2
    let q_size := nlen - p_size
    let min_d := 2 ^ (nlen / 2)
    let p_q_diff := 2 ^ (nlen / 2 - 100)
    let valid_p := fun c =>
      decide (2 * 2 ^ (2 * (p_size - 1)) ≤ c * c) && coprimes (c - 1) e
    match random_probable_prime (random_odd_number_nbits p_size (sp.init i))
        (sp.cand i) (sp.base i) 12 tries valid_p with
    | none => some none
    | some p =>
      let valid_q := fun c =>
        decide (2 * 2 ^ (2 * (q_size - 1)) ≤ c * c) && coprimes (c - 1) e
          && decide (p_q_diff ≤ max p c - min p c)
      match random_probable_prime (random_odd_number_nbits q_size (sq.init i))
          (sq.cand i) (sq.base i) 12 tries valid_q with
      | none => some none
      | some q =>
        match multiplicative_inverse e (Nat.lcm (p - 1) (q - 1)) with
        | none => some none
        | some d =>
          if min_d < d then some (some (p * q, e, d, p, q))
          else rsa_keygen_go nlen e tries sp sq fuel (i + 1)

/-- From `rsa.py`, `rsa_keygen` with the internally drawn primes exposed:
result `(n, e, d, p, q)`.  The guards raise (`some none`) for `nlen < 8`
or even `e`. -/
def rsa_keygen_full (nlen e tries : ℕ) (sp sq : RandomStreams) (fuel : ℕ) :
    Option (Option (ℕ × ℕ × ℕ × ℕ × ℕ)) :=
  if nlen < 8 ∨ e % 2 ≠ 1 then some none
  else rsa_keygen_go nlen e tries sp sq fuel 0

/-- From `rsa.py`, `rsa_keygen`: returns `((n, e), d)`. -/
def rsa_keygen (nlen e tries : ℕ) (sp sq : RandomStreams) (fuel : ℕ) :
    Option (Option ((ℕ × ℕ) × ℕ)) :=
  (rsa_keygen_full nlen e tries sp sq fuel).map
    (Option.map fun r => ((r.1, r.2.1), r.2.2.1))

theorem rsa_keygen_go_spec {nlen e tries : ℕ} {sp sq : RandomStreams}
    {r : ℕ × ℕ × ℕ × ℕ × ℕ} :
    ∀ fuel i, rsa_keygen_go nlen e tries sp sq fuel i = some (some r) →
      r.1 = r.2.2.2.1 * r.2.2.2.2 ∧ r.2.1 = e ∧
        e * r.2.2.1 % Nat.lcm (r.2.2.2.1 - 1) (r.2.2.2.2 - 1) = 1 ∧
        2 ^ (nlen / 2) < r.2.2.1 := by
  intro fuel
  induction fuel with
  | zero => intro i h; exact absurd h (by simp [rsa_keygen_go])
  | succ fuel ih =>
    intro i h
    simp only [rsa_keygen_go] at h
    split at h
    · exact absurd h (by simp)
    · next p hpv =>
      split at h
      · exact absurd h (by simp)
      · next q hqv =>
        split at h
        · exact absurd h (by simp)
        · next d hdv =>
          split at h
          · next hmin =>
            injection h with h1
            injection h1 with h2
            subst h2
            exact ⟨rfl, rfl, multiplicative_inverse_spec hdv, hmin⟩
          · exact ih _ h

/-! ## Claim C5 -/

/-- Claim C5: for every `nlen ≥ 8` and odd `e`, whenever `rsa_keygen`
returns `((n, e), d)` from internally drawn primes `p` and `q`:
`n = p * q`, `e * d ≡ 1 (mod lcm(p-1, q-1))`, and `d > 2^(nlen / 2)`. -/
theorem C5_rsa_keygen_invariants (nlen e tries fuel : ℕ) (sp sq : RandomStreams)
    (n e' d p q : ℕ) (h8 : 8 ≤ nlen) (hodd : e % 2 = 1)
    (heq : rsa_keygen_full nlen e tries sp sq fuel = some (some (n, e', d, p, q))) :
    rsa_keygen nlen e tries sp sq fuel = some (some ((n, e'), d)) ∧
      n = p * q ∧ e' = e ∧ e * d ≡ 1 [MOD Nat.lcm (p - 1) (q - 1)] ∧
      2 ^ (nlen / 2) < d := by
  unfold rsa_keygen_full at heq
  rw [if_neg (by omega)] at heq
  have hspec := rsa_keygen_go_spec (r := (n, e', d, p, q)) fuel 0 heq
  dsimp only at hspec
  refine ⟨?_, hspec.1, hspec.2.1, ?_, hspec.2.2.2⟩
  · unfold rsa_keygen rsa_keygen_full
    rw [if_neg (by omega), heq]
    rfl
  · have h1 := hspec.2.2.1
    unfold Nat.ModEq
    match hL : Nat.lcm (p - 1) (q - 1) with
    | 0 =>
      rw [hL] at h1
      omega
    | 1 =>
      rw [hL] at h1
      omega
    | L + 2 =>
      rw [hL] at h1
      rw [h1, Nat.mod_eq_of_lt (by omega)]

/-- Witness for C5: nlen = 9, e = 5, streams driving the search to
p = 23 (5-bit, ≥ 16√2, with 22 coprime to 5) and q = 13 (4-bit, ≥ 8√2,
with 12 coprime to 5), all Miller-Rabin bases 2; the run returns
n = 299 = 23·13, d = 53 = 5⁻¹ mod lcm(22, 12) = 132, and 53 > 2⁴ = 16. -/
theorem C5_rsa_keygen_invariants_witness :
    (8 : ℕ) ≤ 9 ∧ (5 : ℕ) % 2 = 1 ∧
      rsa_keygen_full 9 5 30000 ⟨fun _ => 3, fun _ _ => 0, fun _ _ _ => 2⟩
          ⟨fun _ => 2, fun _ _ => 0, fun _ _ _ => 2⟩ 1
        = some (some (299, 5, 53, 23, 13)) ∧
      (rsa_keygen 9 5 30000 ⟨fun _ => 3, fun _ _ => 0, fun _ _ _ => 2⟩
          ⟨fun _ => 2, fun _ _ => 0, fun _ _ _ => 2⟩ 1
        = some (some ((299, 5), 53)) ∧
        (299 : ℕ) = 23 * 13 ∧ (5 : ℕ) = 5 ∧
        5 * 53 ≡ 1 [MOD Nat.lcm (23 - 1) (13 - 1)] ∧ 2 ^ (9 / 2) < 53) :=
  ⟨by norm_num, by norm_num, by decide,
    C5_rsa_keygen_invariants 9 5 30000 1 ⟨fun _ => 3, fun _ _ => 0, fun _ _ _ => 2⟩
      ⟨fun _ => 2, fun _ _ => 0, fun _ _ _ => 2⟩ 299 5 53 23 13
      (by norm_num) (by norm_num) (by decide)⟩

/-! ## Diffie-Hellman (`diffie_hellman.py`) -/

/-- Retry loop of `generate_generator`: draws `random.randint(2, p-1)`,
modelled as `2 + gs j % (p - 2)` for the j-th draw, until `is_generator`
accepts; the loop is unbounded in the source, hence the fuel. -/
def generate_generator_go (p : ℕ) (gs : ℕ → ℕ) : ℕ → ℕ → Option ℕ
  | 0, _ => none
  | fuel + 1, j =>
    if is_generator (2 + gs j % (p - 2)) p then some (2 + gs j % (p - 2))
    else generate_generator_go p gs fuel (j + 1)

/-- From `diffie_hellman.py`, `generate_generator`. -/
def generate_generator (p : ℕ) (gs : ℕ → ℕ) (fuel : ℕ) : Option ℕ :=
  generate_generator_go p gs fuel 0

theorem generate_generator_go_spec {p : ℕ} {gs : ℕ → ℕ} :
    ∀ fuel j g, generate_generator_go p gs fuel j = some g →
      is_generator g p = true := by
  intro fuel
  induction fuel with
  | zero => intro j g h; exact absurd h (by simp [generate_generator_go])
  | succ fuel ih =>
    intro j g h
    simp only [generate_generator_go] at h
    split at h
    · next hgen =>
      injection h with h2
      subst h2
      exact hgen
    · exact ih _ _ h

/-- From `diffie_hellman.py`, the outer `while not valid_p` loop of
`diffie_primes`: draw a probable prime `q` of `ceil(nlen/2)` bits, set
`p = 2q + 1`, accept only if `p` itself passes Miller-Rabin (with the
fresh bases `pbst i`), then search for a generator.  The loop is
unbounded in the source, hence the fuel; the generator search carries its
own fuel `gfuel`. -/
def diffie_primes_go (nlen tries : ℕ) (s : RandomStreams) (pbst : ℕ → ℕ → ℕ)
    (gs : ℕ → ℕ) (gfuel : ℕ) : ℕ → ℕ → Option (Option (ℕ × ℕ × ℕ))
  | 0, _ => none
  | fuel + 1, i =>
    let q_size := (nlen + 1) / 2
    let kr := estimate_k nlen 128
    match random_probable_prime (random_odd_number_nbits q_size (s.init i))
        (s.cand i) (s.base i) kr tries (fun _ => true) with
    | none => some none
    | some q =>
      if miller_rabin (2 * q + 1) ((List.range kr).map (pbst i)) then
        match generate_generator (2 * q + 1) gs gfuel with
        | none => none
        | some g => some (some (2 * q + 1, q, g))
      else diffie_primes_go nlen tries s pbst gs gfuel fuel (i + 1)

/-- From `diffie_hellman.py`, `diffie_primes(nlen, tries)`: returns
`(p, q, g)`; the guard raises (`some none`) for `nlen < 8`. -/
def diffie_primes (nlen tries : ℕ) (s : RandomStreams) (pbst : ℕ → ℕ → ℕ)
    (gs : ℕ → ℕ) (fuel gfuel : ℕ) : Option (Option (ℕ × ℕ × ℕ)) :=
  if nlen < 8 then some none
  else diffie_primes_go nlen tries s pbst gs gfuel fuel 0

theorem diffie_primes_go_spec {nlen tries : ℕ} {s : RandomStreams}
    {pbst : ℕ → ℕ → ℕ} {gs : ℕ → ℕ} {gfuel : ℕ} {r : ℕ × ℕ × ℕ} :
    ∀ fuel i, diffie_primes_go nlen tries s pbst gs gfuel fuel i = some (some r) →
      r.1 = 2 * r.2.1 + 1 ∧
        (∃ i' : ℕ, miller_rabin r.1
          ((List.range (estimate_k nlen 128)).map (pbst i')) = true) ∧
        is_generator r.2.2 r.1 = true := by
  intro fuel
  induction fuel with
  | zero => intro i h; exact absurd h (by simp [diffie_primes_go])
  | succ fuel ih =>
    intro i h
    simp only [diffie_primes_go] at h
    split at h
    · exact absurd h (by simp)
    · next q hq =>
      split at h
      · next hmr =>
        split at h
        · exact absurd h (by simp)
        · next g hg =>
          injection h with h1
          injection h1 with h2
          subst h2
          exact ⟨rfl, ⟨i, hmr⟩, generate_generator_go_spec gfuel 0 g hg⟩
      · exact ih _ h

/-! ## Claim C3 -/

/-- Claim C3: for every `nlen ≥ 8`, whenever `diffie_primes(nlen, tries)`
returns `(p, q, g)`: `p = 2q + 1`, `p` passed the Miller-Rabin test at
the configured round count (`estimate_k nlen` at target error `2^-128`)
with the bases actually drawn from the random source at the accepting
outer iteration `i'`, and `is_generator g p` returns true. -/
theorem C3_diffie_primes_invariants (nlen tries fuel gfuel : ℕ)
    (s : RandomStreams) (pbst : ℕ → ℕ → ℕ) (gs : ℕ → ℕ) (p q g : ℕ)
    (h8 : 8 ≤ nlen)
    (heq : diffie_primes nlen tries s pbst gs fuel gfuel = some (some (p, q, g))) :
    p = 2 * q + 1 ∧
      (∃ i' : ℕ, miller_rabin p
        ((List.range (estimate_k nlen 128)).map (pbst i')) = true) ∧
      is_generator g p = true := by
  unfold diffie_primes at heq
  rw [if_neg (by omega)] at heq
  have hspec := diffie_primes_go_spec (r := (p, q, g)) fuel 0 heq
  dsimp only at hspec
  exact hspec

/-- Witness for C3: nlen = 8, the candidate stream delivering q = 11
(whence p = 23, a safe prime passing every base-2 Miller-Rabin round) and
the generator stream delivering g = 5, a primitive root mod 23. -/
theorem C3_diffie_primes_invariants_witness :
    (8 : ℕ) ≤ 8 ∧
      diffie_primes 8 30000 ⟨fun _ => 1, fun _ _ => 0, fun _ _ _ => 2⟩
          (fun _ _ => 2) (fun _ => 3) 1 1 = some (some (23, 11, 5)) ∧
      ((23 : ℕ) = 2 * 11 + 1 ∧
        (∃ i' : ℕ, miller_rabin 23
          ((List.range (estimate_k 8 128)).map ((fun (_ _ : ℕ) => 2) i')) = true) ∧
        is_generator 5 23 = true) :=
  ⟨by norm_num, by decide,
    C3_diffie_primes_invariants 8 30000 1 1
      ⟨fun _ => 1, fun _ _ => 0, fun _ _ _ => 2⟩ (fun _ _ => 2) (fun _ => 3)
      23 11 5 (by norm_num) (by decide)⟩

/-! ## Claim C6 -/

/-- Claim C6 counterexample: the key-generation loops are NOT bounded by
the retry limit `tries` and need not terminate.  With nlen = 10 and
random streams that always deliver the candidate q = 17 (a genuine prime,
accepted by the bounded inner search on its first try at every outer
iteration) and Miller-Rabin bases 2, `p = 2q + 1 = 35 = 5 * 7` fails the
Miller-Rabin acceptance test every time, so the outer
`while not valid_p` loop of `diffie_primes` runs forever: for every
amount of fuel the call neither returns nor raises
`PrimeSearchExhausted`. -/
theorem C6_counterexample :
    ¬ ∃ (fuel gfuel : ℕ) (r : Option (ℕ × ℕ × ℕ)),
      diffie_primes 10 30000 ⟨fun _ => 0, fun _ _ => 0, fun _ _ _ => 2⟩
        (fun _ _ => 2) (fun _ => 0) fuel gfuel = some r := by
  rintro ⟨fuel, gfuel, r, heq⟩
  have hnone : ∀ f i, diffie_primes_go 10 30000
      ⟨fun _ => 0, fun _ _ => 0, fun _ _ _ => 2⟩ (fun _ _ => 2) (fun _ => 0)
      gfuel f i = none := by
    intro f
    induction f with
    | zero => intro i; rfl
    | succ f ih =>
      intro i
      simp only [diffie_primes_go]
      have hrpp : random_probable_prime (random_odd_number_nbits ((10 + 1) / 2) 0)
          (fun _ => 0) (fun _ _ => 2) (estimate_k 10 128) 30000 (fun _ => true)
          = some 17 := by decide
      have hmr : miller_rabin (2 * 17 + 1)
          ((List.range (estimate_k 10 128)).map fun _ => 2) = false := by decide
      dsimp only
      rw [hrpp]
      dsimp only
      rw [hmr]
      simp only [Bool.false_eq_true, if_false]
      exact ih (i + 1)
  unfold diffie_primes at heq
  rw [if_neg (by norm_num)] at heq
  rw [hnone fuel 0] at heq
  exact Option.noConfusion heq

/-- Claim C6 amended: the inner candidate search `random_probable_prime`
is bounded by the retry limit and fails deterministically with
`PrimeSearchExhausted` (`none`) instead of looping when no candidate
satisfies the constraints; the outer acceptance loops of `rsa_keygen`
(`while not valid_d`) and `diffie_primes` (`while not valid_p`) carry no
retry bound and need not terminate. -/
theorem C6_prime_search_bounded (start limit kr : ℕ) (cand : ℕ → ℕ)
    (bst : ℕ → ℕ → ℕ) (test : ℕ → Bool) (htest : ∀ c, test c = false) :
    random_probable_prime start cand bst kr limit test = none :=
  random_probable_prime_go_exhausted htest limit 0

/-- Witness for the amended C6: a search whose constraint rejects every
candidate exhausts its budget of 30000 tries and reports failure. -/
theorem C6_prime_search_bounded_witness :
    (∀ c : ℕ, (fun _ : ℕ => false) c = false) ∧
      random_probable_prime 17 (fun _ => 0) (fun _ _ => 2) 12 30000
        (fun _ => false) = none :=
  ⟨fun _ => rfl, C6_prime_search_bounded 17 30000 12 (fun _ => 0)
    (fun _ _ => 2) (fun _ => false) (fun _ => rfl)⟩

/-! ## Claim C8 -/

/-- Claim C8 counterexample: rsa_verify does not always return False on a
mismatched signature — it can fail with an exception instead.  The
verifier key pair is n = 16850989 = 4099 * 4111, e = 7, d = 2005093
(7 * 2005093 ≡ 1 mod lcm(4098, 4110)); the signer key pair is the
different valid pair n = 299 = 13 * 23, e = 5, d = 53.  The signer's
signature of the digest [171] is 4 bytes; the verifier (block size 3)
decrypts it as a single 4-byte block, so the decrypted block list has
length one and the access to the second-to-last block raises — modelled
as `none`, not `some false`. -/
theorem C8_counterexample :
    Nat.Prime 4099 ∧ Nat.Prime 4111 ∧ (16850989 : ℕ) = 4099 * 4111 ∧
      7 * 2005093 % Nat.lcm 4098 4110 = 1 ∧
      Nat.Prime 13 ∧ Nat.Prime 23 ∧ (299 : ℕ) = 13 * 23 ∧
      5 * 53 % Nat.lcm 12 22 = 1 ∧
      (rsa_sign [171] 299 53).isSome = true ∧
      (rsa_sign [171] 299 53).bind (rsa_verify [171] 16850989 7) = none :=
  ⟨by norm_num, by norm_num, by norm_num, by decide, by norm_num, by norm_num,
    by norm_num, by decide, by decide, by decide⟩

/-- Claim C8 amended: on a signature produced under a mismatched key
pair, `rsa_verify` returns False whenever decryption of the signature
under the verifying key succeeds with a value different from the digest;
on some mismatched signatures decryption instead fails (too few blocks,
or a decrypted size marker / block outside byte-rendering bounds) and
`rsa_verify` raises that error rather than returning False. -/
theorem C8_verify_false_on_mismatch (by_ sig x : List ℕ) (n e : ℕ)
    (hdec : rsa_decrypt sig n e = some x) (hne : x ≠ by_) :
    rsa_verify by_ n e sig = some false := by
  unfold rsa_verify
  rw [hdec]
  simp only [Option.map_some', Option.some.injEq]
  exact beq_eq_false_iff_ne.mpr hne

/-- Witness for the amended C8: the signature of the digest [171] under
the key pair (323 = 17 * 19, e = 7, d = 103) decrypts under the
mismatched verifier key (299, e = 5) to [19] ≠ [171], and verification
returns False. -/
theorem C8_verify_false_on_mismatch_witness :
    rsa_decrypt ((rsa_sign [171] 323 103).getD []) 299 5 = some [19] ∧
      [19] ≠ [171] ∧
      rsa_verify [171] 299 5 ((rsa_sign [171] 323 103).getD []) = some false :=
  ⟨by decide, by decide,
    C8_verify_false_on_mismatch [171] ((rsa_sign [171] 323 103).getD []) [19]
      299 5 (by decide) (by decide)⟩
